import Mathlib

/-!
# Verification of the `sync-cargo-version` release pipeline

Shallow embedding of `scripts/sync-cargo-version.js`: the script reads the
`version` field of `package.json`, parses `src-tauri/Cargo.toml` with
`smol-toml`, assigns `cargo.package.version = version` (plain JS property
assignment), writes the re-serialized TOML back, then runs
`git add src-tauri/Cargo.toml` and `git commit --amend --no-edit --no-verify`
inside a try/catch whose handler prints the error and calls `process.exit(1)`.

The TOML layer models the `smol-toml` `parse`/`stringify` pair on the
table-oriented fragment the secondary manifest uses: a document is an ordered
list of named tables, each an ordered list of string-valued keys (JS objects
preserve insertion order).  `parse` accepts bare keys, basic strings without
escape sequences, full-line and trailing comments, and rejects duplicate
tables/keys as `smol-toml` does; `stringify` re-serializes canonically and
does not preserve comments or the source's spacing, as `smol-toml` does not.
Text is embedded as `List Char`.
-/

namespace Prism

/-- A TOML table: ordered association list of string keys to string values
(the JS object produced by `smol-toml` for a table of basic strings). -/
abbrev Table := List (String × String)

/-- A TOML document: ordered association list of table names to tables
(the top-level JS object produced by `smol-toml` for a table-oriented file). -/
abbrev Doc := List (String × Table)

/-- Characters allowed in TOML bare keys and bare table names. -/
def isBareChar (c : Char) : Bool := c.isAlphanum || c == '-' || c == '_'

/-- Characters allowed inside the modelled basic-string values: anything but
the closing quote and the escape character. -/
def isValChar (c : Char) : Bool := c != '"' && c != '\\'

/-- Inline whitespace. -/
def isWs (c : Char) : Bool := c == ' ' || c == '\t'

/-- Drop leading inline whitespace. -/
def dropWs (cs : List Char) : List Char := cs.dropWhile isWs

/-- After a header or a value, the rest of the line may hold only whitespace
or a trailing comment. -/
def restOk (cs : List Char) : Bool :=
  match dropWs cs with
  | [] => true
  | c :: _ => c == '#'

/-- Classification of one physical line of TOML input. -/
inductive LineKind where
  | blank
  | comment
  | header (name : String)
  | pair (key value : String)
  | bad
  deriving Repr, DecidableEq

/-- Classify the remainder of a line after an opening `[`: a bare table name,
the closing `]`, then only whitespace or a trailing comment. -/
def headerKind (rest : List Char) : LineKind :=
  match rest.takeWhile isBareChar, rest.dropWhile isBareChar with
  | [], _ => .bad
  | name, ']' :: after => if restOk after then .header (String.mk name) else .bad
  | _, _ => .bad

/-- Classify a line starting with a bare-key character `c`: the rest of the
key, `=`, a quoted escape-free value, then only whitespace or a trailing
comment. -/
def pairKind (c : Char) (rest : List Char) : LineKind :=
  match dropWs (rest.dropWhile isBareChar) with
  | '=' :: afterEq =>
    match dropWs afterEq with
    | '"' :: afterQuote =>
      match afterQuote.dropWhile isValChar with
      | '"' :: after =>
        if restOk after then
          .pair (String.mk (c :: rest.takeWhile isBareChar))
                (String.mk (afterQuote.takeWhile isValChar))
        else .bad
      | _ => .bad
    | _ => .bad
  | _ => .bad

/-- Classify one line: blank, full-line comment, `[name]` table header, or
`key = "value"` pair; anything else is malformed. -/
def parseLine (line : List Char) : LineKind :=
  match dropWs line with
  | [] => .blank
  | c :: rest =>
    if c == '#' then .comment
    else if c == '[' then headerKind rest
    else if isBareChar c then pairKind c rest
    else .bad

/-- Split text into physical lines at newline characters. -/
def splitLines : List Char → List (List Char)
  | [] => [[]]
  | c :: rest =>
    match splitLines rest with
    | [] => [[]]
    | l :: ls => if c = '\n' then [] :: l :: ls else (c :: l) :: ls

/-- Join lines with newline separators (inverse of `splitLines` on
newline-free lines). -/
def joinLines : List (List Char) → List Char
  | [] => []
  | [l] => l
  | l :: ls => l ++ '\n' :: joinLines ls

/-- Parse errors of the TOML layer (`smol-toml` throws `TomlError` in each of
these situations). -/
inductive ParseErr where
  | malformedLine
  | keyOutsideTable
  | duplicateTable
  | duplicateKey
  deriving Repr, DecidableEq

/-- Does the table already bind the key? -/
def hasKey (t : Table) (k : String) : Bool := t.any (fun kv => kv.1 == k)

/-- Does the document already contain the table? -/
def hasTable (d : Doc) (n : String) : Bool := d.any (fun nt => nt.1 == n)

/-- Append the table currently being filled, if any, to the finished ones. -/
def closeTable (done : Doc) : Option (String × Table) → Doc
  | none => done
  | some nt => done ++ [nt]

/-- The parser's line loop: `done` holds the finished tables in order, the
third argument the table currently being filled. -/
def parseLinesFold : List (List Char) → Doc → Option (String × Table) →
    Except ParseErr Doc
  | [], done, cur => .ok (closeTable done cur)
  | line :: rest, done, cur =>
    match parseLine line with
    | .blank => parseLinesFold rest done cur
    | .comment => parseLinesFold rest done cur
    | .bad => .error .malformedLine
    | .header n =>
      if hasTable (closeTable done cur) n then .error .duplicateTable
      else parseLinesFold rest (closeTable done cur) (some (n, []))
    | .pair k v =>
      match cur with
      | none => .error .keyOutsideTable
      | some (n, t) =>
        if hasKey t k then .error .duplicateKey
        else parseLinesFold rest done (some (n, t ++ [(k, v)]))

/-- `smol-toml`'s `parse`, on the modelled fragment. -/
def parseToml (cs : List Char) : Except ParseErr Doc :=
  parseLinesFold (splitLines cs) [] none

/-- The serialized form of a `[name]` table header. -/
def headerLineOf (n : String) : List Char := '[' :: (n.data ++ [']'])

/-- The serialized form of one `key = "value"` line. -/
def pairLineOf (kv : String × String) : List Char :=
  kv.1.data ++ ' ' :: '=' :: ' ' :: '"' :: (kv.2.data ++ ['"'])

/-- The serialized lines of one table: `[name]` header then one
`key = "value"` line per field, in insertion order. -/
def tableLines (n : String) (t : Table) : List (List Char) :=
  headerLineOf n :: t.map pairLineOf

/-- The serialized lines of a document. -/
def docLines (d : Doc) : List (List Char) :=
  (d.map (fun nt => tableLines nt.1 nt.2)).flatten

/-- `smol-toml`'s `stringify`, on the modelled fragment: canonical
re-serialization from the structured value (comments and source formatting are
gone; field and table order is the JS object key order). -/
def stringifyToml (d : Doc) : List Char := joinLines (docLines d)

/-- Look up a table of the document. -/
def getTable (d : Doc) (n : String) : Option Table :=
  (d.find? (fun nt => nt.1 == n)).map Prod.snd

/-- Look up a field of a table of the document. -/
def getField (d : Doc) (n k : String) : Option String :=
  match getTable d n with
  | none => none
  | some t => (t.find? (fun kv => kv.1 == k)).map Prod.snd

/-- JS property assignment `obj[k] = v` on a table object: an existing key is
updated in place (insertion order kept), a new key is appended. -/
def setKey (t : Table) (k v : String) : Table :=
  if hasKey t k then t.map (fun kv => if kv.1 == k then (kv.1, v) else kv)
  else t ++ [(k, v)]

/-- The script's `cargo.package.version = version` (line 35): looking up
`cargo[n]` and assigning into it.  When the table is absent the lookup yields
`undefined` and the assignment throws `TypeError` — modelled as `none`. -/
def setFieldInDoc (d : Doc) (n k v : String) : Option Doc :=
  if hasTable d n then
    some (d.map (fun nt => if nt.1 == n then (nt.1, setKey nt.2 k v) else nt))
  else none

/-!
## The pipeline

`runSync` embeds the whole script over an abstract world: the two manifest
files, the git repository state, the console, and the process exit status.
-/

/-- The relative path the script stages: `src-tauri/Cargo.toml`. -/
def cargoPath : String := "src-tauri/Cargo.toml"

/-- The parsed `package.json` as far as the script consumes it: line 24 reads
`packageJson.version`, which in JS is `undefined` when the field is absent —
hence `Option`.  No validation of any kind is performed on it. -/
structure Pack where
  version : Option String
  deriving Repr, DecidableEq

/-- The HEAD commit: its message and the `Cargo.toml` content recorded in its
tree (`none` when the path is not in the tree). -/
structure Commit where
  message : String
  cargoContent : Option (List Char)
  deriving Repr, DecidableEq

/-- The git repository state visible to the script: whether the working
directory is inside a repository (else `git add` itself fails), the optional
HEAD commit (`git commit --amend` fails when there is none), the index entry
for the cargo path, and the number of commits in the history. -/
structure GitState where
  inRepo : Bool
  head : Option Commit
  index : Option (List Char)
  commitCount : Nat
  deriving Repr, DecidableEq

/-- The world the script acts on.  `packageJson = none` models
`readFileSync(packageJsonPath)` or `JSON.parse` throwing (file missing or
unparseable); `cargoText = none` models `readFileSync(cargoTomlPath)`
throwing. -/
structure World where
  packageJson : Option Pack
  cargoText : Option (List Char)
  git : GitState
  deriving Repr, DecidableEq

/-- The script's console lines, one constructor per `console.log` /
`console.error` call site, carrying the interpolated version where the
template has one. -/
inductive ConsoleLine where
  /-- line 26: `📦 当前版本: ${version}` -/
  | currentVersion (v : String)
  /-- line 40: `✅ 已更新 src-tauri/Cargo.toml 版本为 ${version}` -/
  | updatedCargo (v : String)
  /-- line 46: `✅ 已将 Cargo.toml 添加到 release commit` -/
  | amendedCommit
  /-- line 48 (`console.error`): `❌ amend commit 失败: ...` -/
  | amendFailed
  deriving Repr, DecidableEq

/-- The external git commands the script issues, in order of invocation. -/
inductive GitCmd where
  /-- `git add <path>` -/
  | add (path : String)
  /-- `git commit --amend --no-edit --no-verify` -/
  | commitAmendNoEditNoVerify
  deriving Repr, DecidableEq

/-- The error classes of the spec's taxonomy, as they arise in the script:
`readError` for an uncaught `readFileSync`/`JSON.parse`/`smol-toml parse`
throw, `fieldMissingError` for the uncaught `TypeError` of assigning through
the absent `package` table, `versionControlError` for an `execSync` throw
caught by the handler that calls `process.exit(1)`. -/
inductive PipeError where
  | readError
  | fieldMissingError
  | versionControlError
  deriving Repr, DecidableEq

/-- Everything observable about one run. -/
structure Outcome where
  world : World
  log : List ConsoleLine
  errLog : List ConsoleLine
  fsWrites : List (List Char)
  gitTrace : List GitCmd
  exitCode : Nat
  err : Option PipeError
  deriving Repr, DecidableEq

/-- One run of `scripts/sync-cargo-version.js`, step for step.

Returns `none` on the one path the model does not cover: `package.json`
present without a `version` field (line 24 then yields `undefined`, and the
result of `stringify`-ing a document holding an `undefined` value is a
`smol-toml` internal not modelled here).  Everything else follows the script:
read+parse `package.json` (uncaught throw, exit 1, nothing logged); log the
version; read `Cargo.toml` and parse it (uncaught throw, exit 1);
`cargo.package.version = version` (uncaught `TypeError` when `package` is
absent); `writeFileSync` of the re-serialization, unconditionally; log the
update; then `git add` and `git commit --amend --no-edit --no-verify` in a
try/catch that logs to stderr and exits 1 on failure. -/
def runSync (w : World) : Option Outcome :=
  match w.packageJson with
  | none =>
    some { world := w, log := [], errLog := [], fsWrites := [],
           gitTrace := [], exitCode := 1, err := some .readError }
  | some pkg =>
    match pkg.version with
    | none => none
    | some version =>
      let log1 := [ConsoleLine.currentVersion version]
      match w.cargoText with
      | none =>
        some { world := w, log := log1, errLog := [], fsWrites := [],
               gitTrace := [], exitCode := 1, err := some .readError }
      | some text =>
        match parseToml text with
        | .error _ =>
          some { world := w, log := log1, errLog := [], fsWrites := [],
                 gitTrace := [], exitCode := 1, err := some .readError }
        | .ok cargo =>
          match setFieldInDoc cargo "package" "version" version with
          | none =>
            some { world := w, log := log1, errLog := [], fsWrites := [],
                   gitTrace := [], exitCode := 1, err := some .fieldMissingError }
          | some cargo1 =>
            let newText := stringifyToml cargo1
            let w1 : World := { w with cargoText := some newText }
            let log2 := log1 ++ [ConsoleLine.updatedCargo version]
            if w1.git.inRepo then
              let g1 : GitState := { w1.git with index := some newText }
              match g1.head with
              | none =>
                some { world := { w1 with git := g1 }, log := log2,
                       errLog := [.amendFailed], fsWrites := [newText],
                       gitTrace := [.add cargoPath, .commitAmendNoEditNoVerify],
                       exitCode := 1, err := some .versionControlError }
              | some c =>
                let g2 : GitState :=
                  { g1 with head := some { message := c.message,
                                           cargoContent := some newText } }
                some { world := { w1 with git := g2 },
                       log := log2 ++ [.amendedCommit], errLog := [],
                       fsWrites := [newText],
                       gitTrace := [.add cargoPath, .commitAmendNoEditNoVerify],
                       exitCode := 0, err := none }
            else
              some { world := w1, log := log2, errLog := [.amendFailed],
                     fsWrites := [newText], gitTrace := [.add cargoPath],
                     exitCode := 1, err := some .versionControlError }

/-!
## Concrete scenarios

The spec's concrete scenario (§8): primary version `0.1.7`, secondary
manifest currently at `0.1.4` inside `[package]`, plus a sibling table.
-/

/-- A well-formed secondary manifest text, version `0.1.4`. -/
def sampleCargoText : List Char :=
  ("[package]\nname = \"prism\"\nversion = \"0.1.4\"\n\n[dependencies]\nserde = \"1.0\"").data

/-- The parse of `sampleCargoText`. -/
def sampleDoc : Doc :=
  [("package", [("name", "prism"), ("version", "0.1.4")]),
   ("dependencies", [("serde", "1.0")])]

/-- A repository with one commit at HEAD. -/
def sampleGit : GitState :=
  { inRepo := true,
    head := some { message := "chore: release v0.1.7", cargoContent := some sampleCargoText },
    index := none, commitCount := 4 }

/-- The spec's success scenario. -/
def wOk : World :=
  { packageJson := some { version := some "0.1.7" },
    cargoText := some sampleCargoText, git := sampleGit }

/-!
## Well-formedness of parsed documents
-/

/-- A string usable as a TOML bare key / bare table name. -/
def bareName (s : String) : Bool := !s.data.isEmpty && s.data.all isBareChar

/-- A string representable as a modelled basic-string value on one line. -/
def cleanVal (s : String) : Bool := s.data.all (fun c => isValChar c && c != '\n')

/-- Well-formed table: distinct bare keys, clean values. -/
def WFTable (t : Table) : Prop :=
  (t.map Prod.fst).Nodup ∧ ∀ kv ∈ t, bareName kv.1 = true ∧ cleanVal kv.2 = true

/-- Well-formed document: distinct bare table names, well-formed tables. -/
def WFDoc (d : Doc) : Prop :=
  (d.map Prod.fst).Nodup ∧ ∀ nt ∈ d, bareName nt.1 = true ∧ WFTable nt.2

instance (t : Table) : Decidable (WFTable t) := by unfold WFTable; infer_instance

instance (d : Doc) : Decidable (WFDoc d) := by unfold WFDoc; infer_instance

/-!
## Lines: `splitLines` / `joinLines`
-/

theorem splitLines_ne_nil (cs : List Char) : splitLines cs ≠ [] := by
  induction cs with
  | nil => simp [splitLines]
  | cons c rest ih =>
    rcases h : splitLines rest with _ | ⟨l, ls⟩
    · exact absurd h ih
    · simp only [splitLines, h]
      split <;> simp

theorem no_newline_splitLines (cs : List Char) :
    ∀ l ∈ splitLines cs, '\n' ∉ l := by
  induction cs with
  | nil => intro l hl; simp [splitLines] at hl; simp [hl]
  | cons c rest ih =>
    intro l hl
    rcases h : splitLines rest with _ | ⟨l0, ls⟩
    · exact absurd h (splitLines_ne_nil rest)
    · simp only [splitLines, h] at hl
      by_cases hc : c = '\n'
      · simp only [hc, if_pos rfl] at hl
        rcases List.mem_cons.mp hl with hl1 | hl1
        · simp [hl1]
        · exact ih l (h ▸ hl1)
      · simp only [if_neg hc] at hl
        rcases List.mem_cons.mp hl with hl1 | hl1
        · subst hl1
          intro hmem
          rcases List.mem_cons.mp hmem with h1 | h1
          · exact hc h1.symm
          · exact ih l0 (h ▸ List.mem_cons_self l0 ls) h1
        · exact ih l (h ▸ List.mem_cons_of_mem l0 hl1)

theorem splitLines_of_no_newline (l : List Char) (h : '\n' ∉ l) :
    splitLines l = [l] := by
  induction l with
  | nil => rfl
  | cons c rest ih =>
    have hc : c ≠ '\n' := fun hh => h (hh ▸ List.mem_cons_self c rest)
    have hr : '\n' ∉ rest := fun hh => h (List.mem_cons_of_mem c hh)
    simp only [splitLines, ih hr, if_neg hc]

theorem splitLines_append_newline (l cs : List Char) (h : '\n' ∉ l) :
    splitLines (l ++ '\n' :: cs) = l :: splitLines cs := by
  induction l with
  | nil =>
    simp only [List.nil_append, splitLines]
    rcases hs : splitLines cs with _ | ⟨l0, ls⟩
    · exact absurd hs (splitLines_ne_nil cs)
    · simp
  | cons c rest ih =>
    have hc : c ≠ '\n' := fun hh => h (hh ▸ List.mem_cons_self c rest)
    have hr : '\n' ∉ rest := fun hh => h (List.mem_cons_of_mem c hh)
    show splitLines (c :: (rest ++ '\n' :: cs)) = (c :: rest) :: splitLines cs
    simp only [splitLines, ih hr, if_neg hc]

theorem splitLines_joinLines (ls : List (List Char)) (hne : ls ≠ [])
    (h : ∀ l ∈ ls, '\n' ∉ l) : splitLines (joinLines ls) = ls := by
  induction ls with
  | nil => exact absurd rfl hne
  | cons l rest ih =>
    rcases rest with _ | ⟨l1, rest1⟩
    · exact splitLines_of_no_newline l (h l (List.mem_cons_self l []))
    · have hjoin : joinLines (l :: l1 :: rest1) = l ++ '\n' :: joinLines (l1 :: rest1) := rfl
      rw [hjoin, splitLines_append_newline l _ (h l (List.mem_cons_self l _)),
          ih (by simp) (fun x hx => h x (List.mem_cons_of_mem l hx))]

/-!
## Character-level facts
-/

theorem isWs_cases {c : Char} (h : isWs c = true) : c = ' ' ∨ c = '\t' := by
  simp only [isWs, Bool.or_eq_true, beq_iff_eq] at h
  exact h

theorem bare_not_ws {c : Char} (h : isBareChar c = true) : isWs c = false := by
  cases hw : isWs c with
  | false => rfl
  | true =>
    rcases isWs_cases hw with rfl | rfl <;> exact absurd h (by decide)

theorem bare_beq_false {c x : Char} (h : isBareChar c = true)
    (hx : isBareChar x = false) : (c == x) = false := by
  rw [beq_eq_false_iff_ne]
  rintro rfl
  rw [h] at hx
  cases hx

/-!
## `takeWhile` / `dropWhile` on explicit splits
-/

theorem takeWhile_dropWhile_all_append {p : Char → Bool} {l r : List Char}
    (hl : ∀ x ∈ l, p x = true) (hr : ∀ x ∈ r.head?, p x = false) :
    (l ++ r).takeWhile p = l ∧ (l ++ r).dropWhile p = r := by
  induction l with
  | nil =>
    simp only [List.nil_append]
    cases r with
    | nil => simp
    | cons x rs =>
      have hx := hr x (by simp)
      simp [List.takeWhile_cons, List.dropWhile_cons, hx]
  | cons a l ih =>
    have ha := hl a (List.mem_cons_self _ _)
    have ih1 := ih (fun x hx => hl x (List.mem_cons_of_mem a hx))
    simp [List.takeWhile_cons, List.dropWhile_cons, ha, ih1.1, ih1.2]

theorem dropWs_cons_of_not_ws {c : Char} {l : List Char} (h : isWs c = false) :
    dropWs (c :: l) = c :: l := by
  simp [dropWs, List.dropWhile_cons, h]

theorem dropWs_cons_of_ws {c : Char} {l : List Char} (h : isWs c = true) :
    dropWs (c :: l) = dropWs l := by
  simp [dropWs, List.dropWhile_cons, h]

/-!
## Serialized lines parse back to what they serialize
-/

theorem headerKind_serialized (n : String) (h : bareName n = true) :
    headerKind (n.data ++ [']']) = .header n := by
  obtain ⟨hne, hall⟩ := Bool.and_eq_true_iff.mp h
  have hall1 : ∀ x ∈ n.data, isBareChar x = true := by
    intro x hx; exact List.all_eq_true.mp hall x hx
  have htw := takeWhile_dropWhile_all_append (p := isBareChar) (l := n.data)
    (r := [']']) hall1 (by intro x hx; simp at hx; subst hx; decide)
  unfold headerKind
  rw [htw.1, htw.2]
  rcases hd : n.data with _ | ⟨c0, cs0⟩
  · rw [hd] at hne; simp at hne
  · simp only [restOk, dropWs, List.dropWhile_nil, if_true]
    rw [← hd]

theorem pairKind_serialized (c : Char) (ktail : List Char) (v : String)
    (hk : ∀ x ∈ ktail, isBareChar x = true)
    (hv : ∀ x ∈ v.data, isValChar x = true) :
    pairKind c (ktail ++ ' ' :: '=' :: ' ' :: '"' :: (v.data ++ ['"'])) =
      .pair (String.mk (c :: ktail)) v := by
  have htw := takeWhile_dropWhile_all_append (p := isBareChar) (l := ktail)
    (r := ' ' :: '=' :: ' ' :: '"' :: (v.data ++ ['"'])) hk
    (by intro x hx; simp at hx; subst hx; decide)
  have hvw := takeWhile_dropWhile_all_append (p := isValChar) (l := v.data)
    (r := ['"']) hv (by intro x hx; simp at hx; subst hx; decide)
  have h1 : dropWs (' ' :: '=' :: ' ' :: '"' :: (v.data ++ ['"'])) =
      '=' :: ' ' :: '"' :: (v.data ++ ['"']) := by
    rw [dropWs_cons_of_ws (by decide), dropWs_cons_of_not_ws (by decide)]
  have h2 : dropWs (' ' :: '"' :: (v.data ++ ['"'])) = '"' :: (v.data ++ ['"']) := by
    rw [dropWs_cons_of_ws (by decide), dropWs_cons_of_not_ws (by decide)]
  unfold pairKind
  rw [htw.2, h1]
  simp only [htw.1, h2, hvw.1, hvw.2]
  simp [restOk, dropWs]

theorem parseLine_cons_bare (c : Char) (rest : List Char)
    (h : isBareChar c = true) : parseLine (c :: rest) = pairKind c rest := by
  unfold parseLine
  rw [dropWs_cons_of_not_ws (bare_not_ws h)]
  show (if (c == '#') = true then LineKind.comment
    else if (c == '[') = true then headerKind rest
    else if isBareChar c = true then pairKind c rest else LineKind.bad) = pairKind c rest
  rw [show (c == '#') = false from bare_beq_false h (by decide)]
  rw [show (c == '[') = false from bare_beq_false h (by decide)]
  simp [h]

theorem parseLine_header_line (n : String) (h : bareName n = true) :
    parseLine ('[' :: (n.data ++ [']'])) = .header n := by
  unfold parseLine
  rw [dropWs_cons_of_not_ws (by decide)]
  simp only [show ('[' == '#') = false from rfl, show ('[' == '[') = true from rfl,
    Bool.false_eq_true, if_false, if_true]
  exact headerKind_serialized n h

theorem parseLine_pair_line (k v : String) (hk : bareName k = true)
    (hv : ∀ x ∈ v.data, isValChar x = true) :
    parseLine (k.data ++ ' ' :: '=' :: ' ' :: '"' :: (v.data ++ ['"'])) =
      .pair k v := by
  obtain ⟨hne, hall⟩ := Bool.and_eq_true_iff.mp hk
  rcases hd : k.data with _ | ⟨c0, cs0⟩
  · rw [hd] at hne; simp at hne
  · have hc0 : isBareChar c0 = true := by
      have := List.all_eq_true.mp hall c0 (by rw [hd]; exact List.mem_cons_self _ _)
      exact this
    have hcs0 : ∀ x ∈ cs0, isBareChar x = true := by
      intro x hx
      exact List.all_eq_true.mp hall x (by rw [hd]; exact List.mem_cons_of_mem _ hx)
    show parseLine (c0 :: (cs0 ++ ' ' :: '=' :: ' ' :: '"' :: (v.data ++ ['"']))) = .pair k v
    rw [parseLine_cons_bare c0 _ hc0, pairKind_serialized c0 cs0 v hcs0 hv]
    have : String.mk (c0 :: cs0) = k := by rw [← hd]
    rw [this]

/-!
## What a successful line classification tells about the line
-/

theorem headerKind_inv {rest : List Char} {n : String}
    (h : headerKind rest = .header n) :
    n.data ≠ [] ∧ ∀ x ∈ n.data, isBareChar x = true := by
  unfold headerKind at h
  split at h
  · exact nomatch h
  · split at h
    · rename_i a b after heq hne hok
      injection h with h1
      subst h1
      refine ⟨fun hh => hne hh, fun x hx => List.mem_takeWhile_imp hx⟩
    · exact nomatch h
  · exact nomatch h

theorem headerKind_ne_pair {rest : List Char} {k v : String} :
    headerKind rest ≠ .pair k v := by
  intro h
  unfold headerKind at h
  split at h
  · exact nomatch h
  · split at h <;> exact nomatch h
  · exact nomatch h

theorem pairKind_ne_header {c : Char} {rest : List Char} {n : String} :
    pairKind c rest ≠ .header n := by
  intro h
  unfold pairKind at h
  split at h
  · split at h
    · split at h
      · split at h <;> exact nomatch h
      · exact nomatch h
    · exact nomatch h
  · exact nomatch h

theorem pairKind_inv {c : Char} {rest : List Char} {k v : String}
    (h : pairKind c rest = .pair k v) :
    k.data = c :: rest.takeWhile isBareChar ∧
    (∀ x ∈ v.data, isValChar x = true) ∧ ∀ x ∈ v.data, x ∈ rest := by
  unfold pairKind at h
  split at h
  · rename_i afterEq heq1
    split at h
    · rename_i afterQuote heq2
      split at h
      · rename_i after heq3
        split at h
        · injection h with h1 h2
          subst h1
          subst h2
          refine ⟨rfl, fun x hx => List.mem_takeWhile_imp hx, ?_⟩
          intro x hx
          have hx1 : x ∈ afterQuote := (List.takeWhile_sublist _).subset hx
          have hx2 : x ∈ dropWs afterEq := by
            rw [heq2]; exact List.mem_cons_of_mem _ hx1
          have hx3 : x ∈ afterEq := (List.dropWhile_sublist _).subset hx2
          have hx4 : x ∈ dropWs (rest.dropWhile isBareChar) := by
            rw [heq1]; exact List.mem_cons_of_mem _ hx3
          have hx5 : x ∈ rest.dropWhile isBareChar :=
            (List.dropWhile_sublist _).subset hx4
          exact (List.dropWhile_sublist _).subset hx5
        · exact nomatch h
      · exact nomatch h
    · exact nomatch h
  · exact nomatch h

theorem parseLine_header_inv {line : List Char} {n : String}
    (h : parseLine line = .header n) : bareName n = true := by
  unfold parseLine at h
  split at h
  · exact nomatch h
  · split at h
    · exact nomatch h
    · split at h
      · obtain ⟨hne, hall⟩ := headerKind_inv h
        unfold bareName
        rw [Bool.and_eq_true_iff]
        constructor
        · cases hd : n.data
          · exact absurd hd hne
          · rfl
        · exact List.all_eq_true.mpr hall
      · split at h
        · exact absurd h pairKind_ne_header
        · exact nomatch h

theorem parseLine_pair_inv {line : List Char} {k v : String}
    (h : parseLine line = .pair k v) :
    bareName k = true ∧ (∀ x ∈ v.data, isValChar x = true) ∧
      ∀ x ∈ v.data, x ∈ line := by
  unfold parseLine at h
  split at h
  · exact nomatch h
  · rename_i c rest heq
    split at h
    · exact nomatch h
    · split at h
      · exact absurd h headerKind_ne_pair
      · split at h
        · rename_i hnh hnb hbare
          obtain ⟨hk, hval, hmem⟩ := pairKind_inv h
          refine ⟨?_, hval, ?_⟩
          · unfold bareName
            rw [Bool.and_eq_true_iff, hk]
            refine ⟨rfl, List.all_eq_true.mpr ?_⟩
            intro x hx
            rcases List.mem_cons.mp hx with rfl | hx1
            · exact hbare
            · exact List.mem_takeWhile_imp hx1
          · intro x hx
            have hx1 : x ∈ dropWs line := by
              rw [heq]; exact List.mem_cons_of_mem _ (hmem x hx)
            exact (List.dropWhile_sublist _).subset hx1
        · exact nomatch h

/-!
## Boolean membership bridges
-/

theorem hasKey_eq_true_iff {t : Table} {k : String} :
    hasKey t k = true ↔ k ∈ t.map Prod.fst := by
  simp only [hasKey, List.any_eq_true, List.mem_map, beq_iff_eq]

theorem hasTable_eq_true_iff {d : Doc} {n : String} :
    hasTable d n = true ↔ n ∈ d.map Prod.fst := by
  simp only [hasTable, List.any_eq_true, List.mem_map, beq_iff_eq]

theorem hasKey_eq_false_iff {t : Table} {k : String} :
    hasKey t k = false ↔ k ∉ t.map Prod.fst := by
  constructor
  · intro h hmem
    rw [← hasKey_eq_true_iff, h] at hmem
    cases hmem
  · intro h
    cases hh : hasKey t k
    · rfl
    · exact absurd (hasKey_eq_true_iff.mp hh) h

theorem hasTable_eq_false_iff {d : Doc} {n : String} :
    hasTable d n = false ↔ n ∉ d.map Prod.fst := by
  constructor
  · intro h hmem
    rw [← hasTable_eq_true_iff, h] at hmem
    cases hmem
  · intro h
    cases hh : hasTable d n
    · rfl
    · exact absurd (hasTable_eq_true_iff.mp hh) h

theorem cleanVal_val {v : String} (h : cleanVal v = true) :
    ∀ x ∈ v.data, isValChar x = true := by
  intro x hx
  exact (Bool.and_eq_true_iff.mp (List.all_eq_true.mp h x hx)).1

theorem cleanVal_no_newline {v : String} (h : cleanVal v = true) :
    ∀ x ∈ v.data, x ≠ '\n' := by
  intro x hx
  have := (Bool.and_eq_true_iff.mp (List.all_eq_true.mp h x hx)).2
  simpa using this

/-!
## Well-formedness, split on an appended table
-/

theorem WFDoc_append_singleton {d : Doc} {n : String} {t : Table} :
    WFDoc (d ++ [(n, t)]) ↔
      WFDoc d ∧ n ∉ d.map Prod.fst ∧ bareName n = true ∧ WFTable t := by
  unfold WFDoc
  simp only [List.map_append, List.map_cons, List.map_nil, List.nodup_append,
    List.forall_mem_append, List.forall_mem_singleton, List.nodup_singleton,
    List.disjoint_singleton, true_and]
  tauto

/-!
## The serializer's lines parse back (direction: stringify then parse)
-/

theorem no_newline_headerLineOf {n : String} (h : bareName n = true) :
    '\n' ∉ headerLineOf n := by
  intro hmem
  unfold headerLineOf at hmem
  rcases List.mem_cons.mp hmem with h1 | h1
  · exact absurd h1.symm (by decide)
  · rcases List.mem_append.mp h1 with h2 | h2
    · have := List.all_eq_true.mp (Bool.and_eq_true_iff.mp h).2 _ h2
      exact absurd this (by decide)
    · simp at h2

theorem no_newline_pairLineOf {kv : String × String} (hk : bareName kv.1 = true)
    (hv : cleanVal kv.2 = true) : '\n' ∉ pairLineOf kv := by
  intro hmem
  unfold pairLineOf at hmem
  rcases List.mem_append.mp hmem with h1 | h1
  · have := List.all_eq_true.mp (Bool.and_eq_true_iff.mp hk).2 _ h1
    exact absurd this (by decide)
  · rcases List.mem_cons.mp h1 with h2 | h2
    · exact absurd h2.symm (by decide)
    · rcases List.mem_cons.mp h2 with h3 | h3
      · exact absurd h3.symm (by decide)
      · rcases List.mem_cons.mp h3 with h4 | h4
        · exact absurd h4.symm (by decide)
        · rcases List.mem_cons.mp h4 with h5 | h5
          · exact absurd h5.symm (by decide)
          · rcases List.mem_append.mp h5 with h6 | h6
            · exact absurd rfl (cleanVal_no_newline hv _ h6)
            · simp at h6

theorem no_newline_docLines {d : Doc} (h : WFDoc d) :
    ∀ l ∈ docLines d, '\n' ∉ l := by
  intro l hl
  unfold docLines at hl
  rw [List.mem_flatten] at hl
  obtain ⟨ls, hls, hlin⟩ := hl
  rw [List.mem_map] at hls
  obtain ⟨nt, hnt, rfl⟩ := hls
  obtain ⟨hb, hwt⟩ := h.2 nt hnt
  unfold tableLines at hlin
  rcases List.mem_cons.mp hlin with rfl | h1
  · exact no_newline_headerLineOf hb
  · rw [List.mem_map] at h1
    obtain ⟨kv, hkv, rfl⟩ := h1
    exact no_newline_pairLineOf (hwt.2 kv hkv).1 (hwt.2 kv hkv).2

theorem parseLine_pairLineOf (kv : String × String) (hk : bareName kv.1 = true)
    (hv : cleanVal kv.2 = true) : parseLine (pairLineOf kv) = .pair kv.1 kv.2 :=
  parseLine_pair_line kv.1 kv.2 hk (cleanVal_val hv)

theorem parseLine_headerLineOf (n : String) (h : bareName n = true) :
    parseLine (headerLineOf n) = .header n :=
  parseLine_header_line n h

theorem parseLinesFold_pairs (t : Table) (rest : List (List Char)) (done : Doc)
    (n : String) (acc : Table)
    (hwf : ∀ kv ∈ t, bareName kv.1 = true ∧ cleanVal kv.2 = true)
    (hnd : ((acc ++ t).map Prod.fst).Nodup) :
    parseLinesFold (t.map pairLineOf ++ rest) done (some (n, acc)) =
      parseLinesFold rest done (some (n, acc ++ t)) := by
  induction t generalizing acc with
  | nil => simp
  | cons kv t ih =>
    obtain ⟨hb, hc⟩ := hwf kv (List.mem_cons_self _ _)
    have hkey : hasKey acc kv.1 = false := by
      rw [hasKey_eq_false_iff]
      intro hmem
      rw [List.map_append, List.nodup_append] at hnd
      exact hnd.2.2 hmem (by simp)
    have step : parseLinesFold (pairLineOf kv :: (t.map pairLineOf ++ rest)) done
        (some (n, acc)) =
        parseLinesFold (t.map pairLineOf ++ rest) done (some (n, acc ++ [kv])) := by
      rw [parseLinesFold, parseLine_pairLineOf kv hb hc]
      simp [hkey]
    rw [List.map_cons, List.cons_append, step,
      ih (acc ++ [kv]) (fun x hx => hwf x (List.mem_cons_of_mem _ hx))
        (by simpa using hnd)]
    simp

theorem parseLinesFold_docLines (d : Doc) (done : Doc)
    (cur : Option (String × Table))
    (hwf : ∀ nt ∈ d, bareName nt.1 = true ∧ WFTable nt.2)
    (hnd : ((closeTable done cur).map Prod.fst ++ d.map Prod.fst).Nodup) :
    parseLinesFold (docLines d) done cur = .ok (closeTable done cur ++ d) := by
  induction d generalizing done cur with
  | nil => simp [docLines, parseLinesFold]
  | cons nt d ih =>
    obtain ⟨hb, hwt⟩ := hwf nt (List.mem_cons_self _ _)
    have hht : hasTable (closeTable done cur) nt.1 = false := by
      rw [hasTable_eq_false_iff]
      intro hmem
      rw [List.nodup_append] at hnd
      exact hnd.2.2 hmem (by simp)
    have hdoc : docLines (nt :: d) =
        headerLineOf nt.1 :: (nt.2.map pairLineOf ++ docLines d) := by
      simp [docLines, tableLines]
    have step : parseLinesFold (docLines (nt :: d)) done cur =
        parseLinesFold (nt.2.map pairLineOf ++ docLines d)
          (closeTable done cur) (some (nt.1, [])) := by
      rw [hdoc, parseLinesFold, parseLine_headerLineOf nt.1 hb]
      simp [hht]
    rw [step, parseLinesFold_pairs nt.2 (docLines d) (closeTable done cur) nt.1 []
      hwt.2 (by simpa using hwt.1)]
    have hclose : closeTable (closeTable done cur) (some (nt.1, nt.2)) =
        closeTable done cur ++ [nt] := by
      simp [closeTable]
    have ihh := ih (closeTable done cur) (some (nt.1, nt.2))
      (fun x hx => hwf x (List.mem_cons_of_mem _ hx))
      (by
        rw [hclose, List.map_append]
        simpa [List.append_assoc] using hnd)
    simp only [List.nil_append]
    rw [ihh, hclose]
    simp [List.append_assoc]

/-- Direction B of the round trip: a well-formed document's serialization
parses back to the document itself. -/
theorem parseToml_stringifyToml {d : Doc} (h : WFDoc d) :
    parseToml (stringifyToml d) = .ok d := by
  rcases hd : d with _ | ⟨nt, d1⟩
  · rfl
  · subst hd
    unfold parseToml stringifyToml
    have hne : docLines (nt :: d1) ≠ [] := by simp [docLines, tableLines]
    rw [splitLines_joinLines (docLines (nt :: d1)) hne (no_newline_docLines h)]
    have := parseLinesFold_docLines (nt :: d1) [] none h.2
      (by simpa [closeTable] using h.1)
    simpa [closeTable] using this

/-!
## Every parse result is well-formed (direction: parse then stringify)
-/

theorem parseLinesFold_wf (lines : List (List Char)) :
    ∀ (done : Doc) (cur : Option (String × Table)) (d : Doc),
    (∀ l ∈ lines, '\n' ∉ l) → WFDoc (closeTable done cur) →
    parseLinesFold lines done cur = .ok d → WFDoc d := by
  induction lines with
  | nil =>
    intro done cur d _ hinv h
    rw [parseLinesFold] at h
    injection h with h1
    exact h1 ▸ hinv
  | cons line rest ih =>
    intro done cur d hnl hinv h
    have hnlrest : ∀ l ∈ rest, '\n' ∉ l :=
      fun l hl => hnl l (List.mem_cons_of_mem _ hl)
    rw [parseLinesFold] at h
    split at h
    · exact ih done cur d hnlrest hinv h
    · exact ih done cur d hnlrest hinv h
    · exact nomatch h
    · rename_i x0 n hline
      split at h
      · exact nomatch h
      · rename_i hht
        refine ih (closeTable done cur) (some (n, [])) d hnlrest ?_ h
        show WFDoc (closeTable done cur ++ [(n, [])])
        rw [WFDoc_append_singleton]
        refine ⟨hinv, hasTable_eq_false_iff.mp (by simpa using hht), ?_, ?_⟩
        · exact parseLine_header_inv hline
        · exact ⟨List.nodup_nil, by simp⟩
    · rename_i x0 k v hline
      split at h
      · exact nomatch h
      · rename_i n t
        split at h
        · exact nomatch h
        · rename_i hkey
          refine ih done (some (n, t ++ [(k, v)])) d hnlrest ?_ h
          show WFDoc (done ++ [(n, t ++ [(k, v)])])
          have hinv1 : WFDoc (done ++ [(n, t)]) := hinv
          rw [WFDoc_append_singleton] at hinv1 ⊢
          obtain ⟨hd, hn, hb, hwt⟩ := hinv1
          refine ⟨hd, hn, hb, ?_, ?_⟩
          · rw [List.map_append]
            simp only [List.map_cons, List.map_nil]
            rw [List.nodup_append]
            refine ⟨hwt.1, List.nodup_singleton _, ?_⟩
            simp only [List.disjoint_singleton]
            exact hasKey_eq_false_iff.mp (by simpa using hkey)
          · intro kv hkv
            rcases List.mem_append.mp hkv with h1 | h1
            · exact hwt.2 kv h1
            · rw [List.mem_singleton] at h1
              subst h1
              obtain ⟨hbk, hval, hmem⟩ := parseLine_pair_inv hline
              refine ⟨hbk, ?_⟩
              unfold cleanVal
              rw [List.all_eq_true]
              intro x hx
              rw [Bool.and_eq_true_iff]
              refine ⟨hval x hx, ?_⟩
              have hxn : x ≠ '\n' := by
                intro hh
                exact hnl line (List.mem_cons_self _ _) (hh ▸ hmem x hx)
              simpa using hxn

theorem parseToml_wf {cs : List Char} {d : Doc} (h : parseToml cs = .ok d) :
    WFDoc d := by
  refine parseLinesFold_wf (splitLines cs) [] none d (no_newline_splitLines cs)
    ?_ h
  exact ⟨List.nodup_nil, by simp [closeTable]⟩

/-!
## JS assignment: lookup and frame lemmas
-/

theorem setKey_find_same (t : Table) (k v : String) :
    ((setKey t k v).find? (fun kv => kv.1 == k)).map Prod.snd = some v := by
  unfold setKey
  split
  · rename_i hk
    induction t with
    | nil => simp [hasKey] at hk
    | cons kv t ih =>
      cases hkv : kv.1 == k with
      | true =>
        simp only [List.map_cons, hkv, if_true, List.find?]
        simp [hkv]
      | false =>
        have hk1 : hasKey t k = true := by
          simpa [hasKey, hkv] using hk
        simp only [List.map_cons, hkv, Bool.false_eq_true, if_false, List.find?]
        exact ih hk1
  · rename_i hk
    rw [List.find?_append]
    have hnone : t.find? (fun kv => kv.1 == k) = none := by
      rw [List.find?_eq_none]
      intro kv hkv
      have hnotin := hasKey_eq_false_iff.mp (by simpa using hk)
      simp only [beq_iff_eq]
      intro hh
      exact hnotin (hh ▸ List.mem_map_of_mem Prod.fst hkv)
    rw [hnone]
    simp

theorem setKey_find_other (t : Table) (k v j : String) (hj : j ≠ k) :
    (setKey t k v).find? (fun kv => kv.1 == j) = t.find? (fun kv => kv.1 == j) := by
  unfold setKey
  split
  · rw [List.find?_map]
    have hcomp : ((fun kv => kv.1 == j) ∘
        fun kv => if kv.1 == k then (kv.1, v) else kv) =
        (fun (kv : String × String) => kv.1 == j) := by
      funext kv
      simp only [Function.comp]
      split <;> rfl
    rw [hcomp]
    rcases hfind : t.find? (fun kv => kv.1 == j) with _ | e
    · rw [hfind]
      rfl
    · have he := List.find?_some hfind
      rw [beq_iff_eq] at he
      have hne : (e.1 == k) = false := by
        simp only [beq_eq_false_iff_ne, he]
        exact hj
      rw [hfind]
      simp only [Option.map_some', hne, Bool.false_eq_true, if_false]
  · rw [List.find?_append]
    have hlast : [(k, v)].find? (fun kv => kv.1 == j) = none := by
      have hne : (k == j) = false := by
        simp only [beq_eq_false_iff_ne]
        exact fun hh => hj hh.symm
      simp [List.find?_singleton, hne]
    rw [hlast]
    simp

theorem setKey_map_fst_of_hasKey (t : Table) (k v : String)
    (h : hasKey t k = true) : (setKey t k v).map Prod.fst = t.map Prod.fst := by
  unfold setKey
  rw [if_pos h, List.map_map]
  refine List.map_congr_left ?_
  intro kv _
  simp only [Function.comp]
  split <;> rfl

theorem WFTable_setKey {t : Table} {k v : String} (hwt : WFTable t)
    (hk : bareName k = true) (hv : cleanVal v = true) :
    WFTable (setKey t k v) := by
  unfold setKey
  split
  · rename_i hhas
    constructor
    · rw [List.map_map]
      have : (Prod.fst ∘ fun kv => if kv.1 == k then (kv.1, v) else kv) =
          (Prod.fst : String × String → String) := by
        funext kv
        simp only [Function.comp]
        split <;> rfl
      rw [this]
      exact hwt.1
    · intro kv hkv
      rw [List.mem_map] at hkv
      obtain ⟨kv0, hkv0, rfl⟩ := hkv
      by_cases hkv1 : kv0.1 == k
      · simp only [hkv1, if_true]
        exact ⟨(hwt.2 kv0 hkv0).1, hv⟩
      · simp only [hkv1, if_false]
        exact hwt.2 kv0 hkv0
  · rename_i hhas
    constructor
    · rw [List.map_append]
      simp only [List.map_cons, List.map_nil]
      rw [List.nodup_append]
      refine ⟨hwt.1, List.nodup_singleton _, ?_⟩
      simp only [List.disjoint_singleton]
      exact hasKey_eq_false_iff.mp (by simpa using hhas)
    · intro kv hkv
      rcases List.mem_append.mp hkv with h1 | h1
      · exact hwt.2 kv h1
      · rw [List.mem_singleton] at h1
        subst h1
        exact ⟨hk, hv⟩

theorem setFieldInDoc_map_fst {d d' : Doc} {n k v : String}
    (h : setFieldInDoc d n k v = some d') :
    d'.map Prod.fst = d.map Prod.fst := by
  unfold setFieldInDoc at h
  split at h
  · injection h with h1
    subst h1
    rw [List.map_map]
    refine List.map_congr_left ?_
    intro nt _
    simp only [Function.comp]
    split <;> rfl
  · exact nomatch h

theorem getTable_setFieldInDoc_other {d d' : Doc} {n k v m : String}
    (h : setFieldInDoc d n k v = some d') (hm : m ≠ n) :
    getTable d' m = getTable d m := by
  unfold setFieldInDoc at h
  split at h
  · injection h with h1
    subst h1
    unfold getTable
    rw [List.find?_map]
    have hcomp : ((fun nt => nt.1 == m) ∘
        fun nt => if nt.1 == n then (nt.1, setKey nt.2 k v) else nt) =
        (fun (nt : String × Table) => nt.1 == m) := by
      funext nt
      simp only [Function.comp]
      split <;> rfl
    rw [hcomp]
    rcases hfind : d.find? (fun nt => nt.1 == m) with _ | e
    · rw [hfind]
      rfl
    · have he := List.find?_some hfind
      rw [beq_iff_eq] at he
      have hne : (e.1 == n) = false := by
        simp only [beq_eq_false_iff_ne, he]
        exact hm
      rw [hfind]
      simp only [Option.map_some', hne, Bool.false_eq_true, if_false]
  · exact nomatch h

theorem getTable_setFieldInDoc_same {d d' : Doc} {n k v : String}
    (h : setFieldInDoc d n k v = some d') :
    getTable d' n = (getTable d n).map (fun t => setKey t k v) := by
  unfold setFieldInDoc at h
  split at h
  · injection h with h1
    subst h1
    unfold getTable
    rw [List.find?_map]
    have hcomp : ((fun nt => nt.1 == n) ∘
        fun nt => if nt.1 == n then (nt.1, setKey nt.2 k v) else nt) =
        (fun (nt : String × Table) => nt.1 == n) := by
      funext nt
      simp only [Function.comp]
      split <;> rfl
    rw [hcomp]
    rcases hfind : d.find? (fun nt => nt.1 == n) with _ | e
    · rw [hfind]
      rfl
    · have he := List.find?_some hfind
      rw [beq_iff_eq] at he
      have hee : (e.1 == n) = true := by simpa using he
      rw [hfind]
      simp only [Option.map_some', hee, if_true]
  · exact nomatch h

theorem getTable_of_setFieldInDoc {d d' : Doc} {n k v : String}
    (h : setFieldInDoc d n k v = some d') :
    ∃ t, getTable d n = some t := by
  unfold setFieldInDoc at h
  split at h
  · rename_i hht
    rcases hfind : d.find? (fun nt => nt.1 == n) with _ | e
    · rw [List.find?_eq_none] at hfind
      rw [hasTable_eq_true_iff] at hht
      rw [List.mem_map] at hht
      obtain ⟨nt, hnt, hfst⟩ := hht
      exact absurd (by simp [hfst]) (hfind nt hnt)
    · exact ⟨e.2, by simp [getTable, hfind]⟩
  · exact nomatch h

theorem getField_setFieldInDoc_same {d d' : Doc} {n k v : String}
    (h : setFieldInDoc d n k v = some d') : getField d' n k = some v := by
  obtain ⟨t, ht⟩ := getTable_of_setFieldInDoc h
  have h1 := getTable_setFieldInDoc_same h
  rw [ht] at h1
  unfold getField
  rw [h1]
  simp only [Option.map_some']
  exact setKey_find_same t k v

theorem getField_setFieldInDoc_other {d d' : Doc} {n k v m j : String}
    (h : setFieldInDoc d n k v = some d') (hp : m ≠ n ∨ j ≠ k) :
    getField d' m j = getField d m j := by
  by_cases hm : m = n
  · subst hm
    rcases hp with hp | hp
    · exact absurd rfl hp
    · have h1 := getTable_setFieldInDoc_same h
      unfold getField
      rw [h1]
      rcases hget : getTable d m with _ | t
      · rfl
      · simp only [Option.map_some']
        rw [setKey_find_other t k v j hp]
  · unfold getField
    rw [getTable_setFieldInDoc_other h hm]

theorem WFDoc_setFieldInDoc {d d' : Doc} {n k v : String} (hwf : WFDoc d)
    (hk : bareName k = true) (hv : cleanVal v = true)
    (h : setFieldInDoc d n k v = some d') : WFDoc d' := by
  unfold setFieldInDoc at h
  split at h
  · injection h with h1
    subst h1
    constructor
    · have : (List.map (fun nt => if nt.1 == n then (nt.1, setKey nt.2 k v) else nt)
          d).map Prod.fst = d.map Prod.fst := by
        rw [List.map_map]
        refine List.map_congr_left ?_
        intro nt _
        simp only [Function.comp]
        split <;> rfl
      rw [this]
      exact hwf.1
    · intro nt hnt
      rw [List.mem_map] at hnt
      obtain ⟨nt0, hnt0, rfl⟩ := hnt
      by_cases hnt1 : nt0.1 == n
      · simp only [hnt1, if_true]
        exact ⟨(hwf.2 nt0 hnt0).1, WFTable_setKey (hwf.2 nt0 hnt0).2 hk hv⟩
      · simp only [hnt1, if_false]
        exact hwf.2 nt0 hnt0
  · exact nomatch h

/-!
## Valid version strings
-/

/-- A semantic-version-shaped character. -/
def isVersionChar (c : Char) : Bool := c.isAlphanum || c == '.' || c == '-' || c == '+'

/-- A valid version string per the spec: non-empty and semver-shaped. -/
def validVersion (s : String) : Bool := !s.data.isEmpty && s.data.all isVersionChar

theorem isVersionChar_clean {c : Char} (h : isVersionChar c = true) :
    (isValChar c && c != '\n') = true := by
  unfold isVersionChar at h
  simp only [Bool.or_eq_true, beq_iff_eq] at h
  unfold isValChar
  simp only [Bool.and_eq_true, bne_iff_ne]
  rcases h with ((ha | hb) | hc) | hd
  · refine ⟨⟨?_, ?_⟩, ?_⟩ <;> rintro rfl <;> exact absurd ha (by decide)
  · subst hb; decide
  · subst hc; decide
  · subst hd; decide

theorem validVersion_cleanVal {s : String} (h : validVersion s = true) :
    cleanVal s = true := by
  unfold validVersion at h
  obtain ⟨_, hall⟩ := Bool.and_eq_true_iff.mp h
  unfold cleanVal
  rw [List.all_eq_true]
  intro x hx
  exact isVersionChar_clean (List.all_eq_true.mp hall x hx)

/-!
## Run shapes of the pipeline
-/

/-- The outcome of a run that fails before `writeFileSync`: the world is
untouched, nothing is written, no git command is issued, the process dies
with a non-zero status from the uncaught exception. -/
def earlyFail (w : World) (log : List ConsoleLine) (e : PipeError) : Outcome :=
  { world := w, log := log, errLog := [], fsWrites := [], gitTrace := [],
    exitCode := 1, err := some e }

/-- The outcome of a run that has reached the write stage with the serialized
new text: the write always happens, then the git phase runs in its try/catch. -/
def gitPhase (w : World) (V : String) (newText : List Char) : Outcome :=
  if w.git.inRepo then
    match w.git.head with
    | none =>
      { world := { w with
          cargoText := some newText,
          git := { w.git with index := some newText } },
        log := [.currentVersion V, .updatedCargo V],
        errLog := [.amendFailed], fsWrites := [newText],
        gitTrace := [.add cargoPath, .commitAmendNoEditNoVerify],
        exitCode := 1, err := some .versionControlError }
    | some c =>
      { world := { w with
          cargoText := some newText,
          git := { w.git with
            index := some newText,
            head := some { message := c.message,
                           cargoContent := some newText } } },
        log := [.currentVersion V, .updatedCargo V, .amendedCommit],
        errLog := [], fsWrites := [newText],
        gitTrace := [.add cargoPath, .commitAmendNoEditNoVerify],
        exitCode := 0, err := none }
  else
    { world := { w with cargoText := some newText },
      log := [.currentVersion V, .updatedCargo V],
      errLog := [.amendFailed], fsWrites := [newText],
      gitTrace := [.add cargoPath], exitCode := 1,
      err := some .versionControlError }

theorem runSync_no_primary {w : World} (h : w.packageJson = none) :
    runSync w = some (earlyFail w [] .readError) := by
  simp [runSync, earlyFail, h]

theorem runSync_no_cargo {w : World} {pk : Pack} {V : String}
    (hpj : w.packageJson = some pk) (hver : pk.version = some V)
    (hct : w.cargoText = none) :
    runSync w = some (earlyFail w [.currentVersion V] .readError) := by
  simp [runSync, earlyFail, hpj, hver, hct]

theorem runSync_parse_error {w : World} {pk : Pack} {V : String}
    {text : List Char} {e : ParseErr}
    (hpj : w.packageJson = some pk) (hver : pk.version = some V)
    (hct : w.cargoText = some text) (hparse : parseToml text = .error e) :
    runSync w = some (earlyFail w [.currentVersion V] .readError) := by
  simp [runSync, earlyFail, hpj, hver, hct, hparse]

theorem runSync_no_package_table {w : World} {pk : Pack} {V : String}
    {text : List Char} {cargo : Doc}
    (hpj : w.packageJson = some pk) (hver : pk.version = some V)
    (hct : w.cargoText = some text) (hparse : parseToml text = .ok cargo)
    (hset : setFieldInDoc cargo "package" "version" V = none) :
    runSync w = some (earlyFail w [.currentVersion V] .fieldMissingError) := by
  simp [runSync, earlyFail, hpj, hver, hct, hparse, hset]

theorem runSync_reaches_git {w : World} {pk : Pack} {V : String}
    {text : List Char} {cargo cargo1 : Doc}
    (hpj : w.packageJson = some pk) (hver : pk.version = some V)
    (hct : w.cargoText = some text) (hparse : parseToml text = .ok cargo)
    (hset : setFieldInDoc cargo "package" "version" V = some cargo1) :
    runSync w = some (gitPhase w V (stringifyToml cargo1)) := by
  unfold runSync gitPhase
  simp only [hpj, hver, hct, hparse, hset]
  by_cases hrepo : w.git.inRepo
  · simp only [hrepo, if_true]
    rcases hh : w.git.head with _ | c <;> simp [hh]
  · simp [hrepo]

/-!
## Further concrete scenarios for the claims
-/

/-- `sampleDoc` with the version bumped to `0.1.7`. -/
def sampleDoc17 : Doc :=
  [("package", [("name", "prism"), ("version", "0.1.7")]),
   ("dependencies", [("serde", "1.0")])]

/-- Primary already at the secondary's current version `0.1.4`. -/
def wSame : World :=
  { packageJson := some { version := some "0.1.4" },
    cargoText := some sampleCargoText, git := sampleGit }

/-- A secondary manifest with no `package` table. -/
def noPackageText : List Char := ("[dependencies]\nserde = \"1.0\"").data

/-- World whose secondary manifest lacks the `package` table. -/
def wNoPkgTable : World :=
  { packageJson := some { version := some "0.1.7" },
    cargoText := some noPackageText, git := sampleGit }

/-- Inside a repository with no commit yet (amend must fail). -/
def wNoHead : World :=
  { packageJson := some { version := some "0.1.7" },
    cargoText := some sampleCargoText,
    git := { inRepo := true, head := none, index := none, commitCount := 0 } }

/-- `package.json` missing or unparseable. -/
def wNoPrimary : World :=
  { packageJson := none, cargoText := some sampleCargoText, git := sampleGit }

/-- `package.json` carrying an empty-string version. -/
def wEmptyVer : World :=
  { packageJson := some { version := some "" },
    cargoText := some sampleCargoText, git := sampleGit }

/-- The (unique) outcome of the success scenario. -/
def okOutcome : Outcome := (runSync wOk).get (by decide)

/-- The outcome when the primary version equals the secondary's. -/
def sameOutcome : Outcome := (runSync wSame).get (by decide)

/-- The outcome when no commit exists. -/
def noHeadOutcome : Outcome := (runSync wNoHead).get (by decide)

/-- The outcome when the `package` table is missing. -/
def noPkgOutcome : Outcome := (runSync wNoPkgTable).get (by decide)

/-- The outcome when the primary manifest is missing. -/
def noPrimaryOutcome : Outcome := (runSync wNoPrimary).get (by decide)

/-- Does this console line carry the given version value? -/
def mentionsVersion : ConsoleLine → String → Bool
  | .currentVersion v, s => v == s
  | .updatedCargo v, s => v == s
  | _, _ => false

/-- Does this console line carry no version other than `V`? -/
def mentionsOnly (V : String) : ConsoleLine → Bool
  | .currentVersion v => v == V
  | .updatedCargo v => v == V
  | _ => true

/-!
## The claims
-/

/-- C1: for every valid version string `V` stored in the primary manifest,
after a successful run of the pipeline, parsing the secondary manifest written
to disk yields a `package.version` field equal to `V` exactly. -/
theorem c1_secondary_version_equals_primary (w : World) (pk : Pack) (V : String)
    (o : Outcome) (hpj : w.packageJson = some pk) (hver : pk.version = some V)
    (hval : validVersion V = true) (hrun : runSync w = some o)
    (hok : o.exitCode = 0) :
    ∃ text d, o.world.cargoText = some text ∧ parseToml text = .ok d ∧
      getField d "package" "version" = some V := by
  rcases hct : w.cargoText with _ | text
  · rw [runSync_no_cargo hpj hver hct] at hrun
    injection hrun with h1
    subst h1
    simp [earlyFail] at hok
  · rcases hparse : parseToml text with e | cargo
    · rw [runSync_parse_error hpj hver hct hparse] at hrun
      injection hrun with h1
      subst h1
      simp [earlyFail] at hok
    · rcases hset : setFieldInDoc cargo "package" "version" V with _ | cargo1
      · rw [runSync_no_package_table hpj hver hct hparse hset] at hrun
        injection hrun with h1
        subst h1
        simp [earlyFail] at hok
      · rw [runSync_reaches_git hpj hver hct hparse hset] at hrun
        injection hrun with h1
        subst h1
        by_cases hrepo : w.git.inRepo
        · rcases hh : w.git.head with _ | c
          · exfalso
            simp [gitPhase, hrepo, hh] at hok
          · refine ⟨stringifyToml cargo1, cargo1, ?_, ?_, ?_⟩
            · simp [gitPhase, hrepo, hh]
            · exact parseToml_stringifyToml
                (WFDoc_setFieldInDoc (parseToml_wf hparse) (by decide)
                  (validVersion_cleanVal hval) hset)
            · exact getField_setFieldInDoc_same hset
        · exfalso
          simp [gitPhase, hrepo] at hok

/-- C1 witness: the spec's concrete scenario, primary `0.1.7`, secondary at
`0.1.4`. -/
theorem c1_witness :
    ∃ text d, okOutcome.world.cargoText = some text ∧ parseToml text = .ok d ∧
      getField d "package" "version" = some "0.1.7" :=
  c1_secondary_version_equals_primary wOk { version := some "0.1.7" } "0.1.7"
    okOutcome rfl rfl (by decide) (Option.some_get _).symm (by decide)

/-- C2: when the run reaches the git phase inside a repository with no commit
(HEAD missing), the amend fails: the run ends with `versionControlError` and
exit status 1, after the secondary manifest has already been rewritten on
disk; no commit is produced and the file write is not reverted. -/
theorem c2_amend_fails_after_write (w : World) (pk : Pack) (V : String)
    (text : List Char) (cargo cargo1 : Doc) (o : Outcome)
    (hpj : w.packageJson = some pk) (hver : pk.version = some V)
    (hct : w.cargoText = some text) (hparse : parseToml text = .ok cargo)
    (hset : setFieldInDoc cargo "package" "version" V = some cargo1)
    (hrepo : w.git.inRepo = true) (hhead : w.git.head = none)
    (hrun : runSync w = some o) :
    o.err = some .versionControlError ∧ o.exitCode = 1 ∧
    o.world.cargoText = some (stringifyToml cargo1) ∧
    o.fsWrites = [stringifyToml cargo1] ∧
    o.world.git.head = none ∧
    o.world.git.commitCount = w.git.commitCount := by
  rw [runSync_reaches_git hpj hver hct hparse hset] at hrun
  injection hrun with h1
  subst h1
  simp [gitPhase, hrepo, hhead]

/-- C2 witness: the no-commit repository; the file content moreover actually
changed (0.1.4 became 0.1.7). -/
theorem c2_witness :
    noHeadOutcome.err = some PipeError.versionControlError ∧
    noHeadOutcome.exitCode = 1 ∧
    noHeadOutcome.world.cargoText = some (stringifyToml sampleDoc17) ∧
    noHeadOutcome.fsWrites = [stringifyToml sampleDoc17] ∧
    noHeadOutcome.world.git.head = none ∧
    noHeadOutcome.world.git.commitCount = wNoHead.git.commitCount :=
  c2_amend_fails_after_write wNoHead { version := some "0.1.7" } "0.1.7"
    sampleCargoText sampleDoc sampleDoc17 noHeadOutcome rfl rfl rfl rfl rfl rfl
    rfl (Option.some_get _).symm

/-- C3: if the secondary manifest parses but has no `package` table, the run
fails with `fieldMissingError` and the file on disk is byte-for-byte
unchanged: no write and no git command happen, the final world is the initial
one. -/
theorem c3_missing_package_table (w : World) (pk : Pack) (V : String)
    (text : List Char) (cargo : Doc) (o : Outcome)
    (hpj : w.packageJson = some pk) (hver : pk.version = some V)
    (hct : w.cargoText = some text) (hparse : parseToml text = .ok cargo)
    (hnopkg : hasTable cargo "package" = false)
    (hrun : runSync w = some o) :
    o.err = some .fieldMissingError ∧ o.exitCode = 1 ∧ o.world = w ∧
    o.world.cargoText = some text ∧ o.fsWrites = [] ∧ o.gitTrace = [] := by
  have hset : setFieldInDoc cargo "package" "version" V = none := by
    unfold setFieldInDoc
    rw [hnopkg]
    simp
  rw [runSync_no_package_table hpj hver hct hparse hset] at hrun
  injection hrun with h1
  subst h1
  simp [earlyFail, hct]

/-- C3 witness: a manifest holding only a `[dependencies]` table. -/
theorem c3_witness :
    noPkgOutcome.err = some PipeError.fieldMissingError ∧
    noPkgOutcome.exitCode = 1 ∧ noPkgOutcome.world = wNoPkgTable ∧
    noPkgOutcome.world.cargoText = some noPackageText ∧
    noPkgOutcome.fsWrites = [] ∧ noPkgOutcome.gitTrace = [] :=
  c3_missing_package_table wNoPkgTable { version := some "0.1.7" } "0.1.7"
    noPackageText [("dependencies", [("serde", "1.0")])] noPkgOutcome
    rfl rfl rfl rfl rfl (Option.some_get _).symm

/-- C4 counterexample: the script never validates the version value.  With a
present but empty version string (not a non-empty string, so the claim says
the run must fail with `fieldMissingError` before any write), the run instead
succeeds: exit code 0, no error, the file is written — with `version = ""`. -/
theorem c4_counterexample :
    (runSync wEmptyVer).map Outcome.exitCode = some 0 ∧
    (runSync wEmptyVer).map Outcome.err = some none ∧
    (runSync wEmptyVer).map Outcome.fsWrites ≠ some [] ∧
    (runSync wEmptyVer).map (fun o => o.world.cargoText) =
      some (some (stringifyToml
        [("package", [("name", "prism"), ("version", "")]),
         ("dependencies", [("serde", "1.0")])])) := by
  refine ⟨rfl, rfl, ?_, rfl⟩
  decide

/-- C4 amended: if the primary manifest is missing or unparseable, the run
fails with `readError` before anything happens: nothing written, nothing
staged, nothing logged, the world untouched.  (The second half of the original
claim is false: a present `version` value is consumed unvalidated — see the
counterexample, where the empty string flows through and is written.) -/
theorem c4_amended_missing_primary_fails_early (w : World) (o : Outcome)
    (h : w.packageJson = none) (hrun : runSync w = some o) :
    o.err = some .readError ∧ o.exitCode = 1 ∧ o.world = w ∧
    o.fsWrites = [] ∧ o.gitTrace = [] ∧ o.log = [] := by
  rw [runSync_no_primary h] at hrun
  injection hrun with h1
  subst h1
  simp [earlyFail]

/-- C4 amended witness: missing `package.json`. -/
theorem c4_amended_witness :
    noPrimaryOutcome.err = some PipeError.readError ∧
    noPrimaryOutcome.exitCode = 1 ∧ noPrimaryOutcome.world = wNoPrimary ∧
    noPrimaryOutcome.fsWrites = [] ∧ noPrimaryOutcome.gitTrace = [] ∧
    noPrimaryOutcome.log = [] :=
  c4_amended_missing_primary_fails_early wNoPrimary noPrimaryOutcome rfl
    (Option.some_get _).symm

/-- The secondary manifest text of the C5 counterexample: a `[package]` table
with a comment line pinned above the version field. -/
def c5Text : List Char := ("[package]\n# pinned\nversion = \"0.1.4\"").data

/-- Its parse (the comment is discarded by the parser). -/
def c5Doc : Doc := [("package", [("version", "0.1.4")])]

/-- The document after setting `package.version` to `0.1.7`. -/
def c5Doc17 : Doc := [("package", [("version", "0.1.7")])]

/-- C5 counterexample: the claim says the serialized document written back
differs from the ORIGINAL TEXT only in the version field's textual
representation.  False: `smol-toml` is not format-preserving — the parse drops
the comment and the re-serialization does not contain it, so the output is not
the original text with only the version line changed. -/
theorem c5_counterexample :
    parseToml c5Text = .ok c5Doc ∧
    setFieldInDoc c5Doc "package" "version" "0.1.7" = some c5Doc17 ∧
    stringifyToml c5Doc17 = ("[package]\nversion = \"0.1.7\"").data ∧
    stringifyToml c5Doc17 ≠ ("[package]\n# pinned\nversion = \"0.1.7\"").data := by
  refine ⟨rfl, rfl, rfl, ?_⟩
  decide

/-- C5 amended: the structural frame property that does hold.  Setting
`package.version` (present beforehand, as in any well-formed secondary
manifest) leaves every other field path's value unchanged, preserves the table
list and its order, preserves every table's key list and key order, and sets
exactly `package.version` to the new value.  Serialization differs from the
serialization of the ORIGINAL DOCUMENT only in the version line; the original
file's comments and spacing are not preserved (see the counterexample). -/
theorem c5_amended_set_is_a_frame (d d1 : Doc) (v oldV m j : String)
    (hset : setFieldInDoc d "package" "version" v = some d1)
    (hold : getField d "package" "version" = some oldV)
    (hp : m ≠ "package" ∨ j ≠ "version") :
    getField d1 m j = getField d m j ∧
    d1.map Prod.fst = d.map Prod.fst ∧
    (getTable d1 m).map (fun t => t.map Prod.fst) =
      (getTable d m).map (fun t => t.map Prod.fst) ∧
    getField d1 "package" "version" = some v := by
  refine ⟨getField_setFieldInDoc_other hset hp, setFieldInDoc_map_fst hset, ?_,
    getField_setFieldInDoc_same hset⟩
  by_cases hm : m = "package"
  · subst hm
    rw [getTable_setFieldInDoc_same hset]
    rcases hget : getTable d "package" with _ | t
    · rfl
    · simp only [Option.map_some']
      congr 1
      apply setKey_map_fst_of_hasKey
      unfold getField at hold
      simp only [hget] at hold
      rcases hfind : t.find? (fun kv => kv.1 == "version") with _ | e
      · rw [hfind] at hold
        exact nomatch hold
      · have hmem := List.mem_of_find?_eq_some hfind
        have hfst := List.find?_some hfind
        rw [beq_iff_eq] at hfst
        rw [hasKey_eq_true_iff]
        exact hfst ▸ List.mem_map_of_mem Prod.fst hmem
  · rw [getTable_setFieldInDoc_other hset hm]

/-- C5 amended witness: on the sample manifest, the sibling
`dependencies.serde` field survives the version bump untouched. -/
theorem c5_amended_witness :
    getField sampleDoc17 "dependencies" "serde" =
      getField sampleDoc "dependencies" "serde" ∧
    sampleDoc17.map Prod.fst = sampleDoc.map Prod.fst ∧
    (getTable sampleDoc17 "dependencies").map (fun t => t.map Prod.fst) =
      (getTable sampleDoc "dependencies").map (fun t => t.map Prod.fst) ∧
    getField sampleDoc17 "package" "version" = some "0.1.7" :=
  c5_amended_set_is_a_frame sampleDoc sampleDoc17 "0.1.7" "0.1.4"
    "dependencies" "serde" rfl rfl (Or.inl (by decide))

/-- C6: round-trip law — a text that parses successfully, serialized without
any `set` and parsed again, gives back the very same document: identical field
set and identical field order. -/
theorem c6_parse_stringify_roundtrip (cs : List Char) (d : Doc)
    (h : parseToml cs = .ok d) : parseToml (stringifyToml d) = .ok d :=
  parseToml_stringifyToml (parseToml_wf h)

/-- C6 witness: the sample manifest text round-trips. -/
theorem c6_witness :
    parseToml sampleCargoText = .ok sampleDoc ∧
    parseToml (stringifyToml sampleDoc) = .ok sampleDoc :=
  ⟨rfl, c6_parse_stringify_roundtrip sampleCargoText sampleDoc rfl⟩

/-- C7: the write is unconditional.  Every run that reaches the write stage
performs exactly one `writeFileSync` of the re-serialized document — there is
no comparison of old and new version and no short-circuit. -/
theorem c7_unconditional_write (w : World) (pk : Pack) (V : String)
    (text : List Char) (cargo cargo1 : Doc) (o : Outcome)
    (hpj : w.packageJson = some pk) (hver : pk.version = some V)
    (hct : w.cargoText = some text) (hparse : parseToml text = .ok cargo)
    (hset : setFieldInDoc cargo "package" "version" V = some cargo1)
    (hrun : runSync w = some o) :
    o.fsWrites = [stringifyToml cargo1] ∧
    o.world.cargoText = some (stringifyToml cargo1) := by
  rw [runSync_reaches_git hpj hver hct hparse hset] at hrun
  injection hrun with h1
  subst h1
  by_cases hrepo : w.git.inRepo
  · rcases hh : w.git.head with _ | c <;> simp [gitPhase, hrepo, hh]
  · simp [gitPhase, hrepo]

/-- C7 witness: the primary version already equals the secondary's (`0.1.4`),
and the file is still written. -/
theorem c7_witness :
    getField sampleDoc "package" "version" = some "0.1.4" ∧
    sameOutcome.fsWrites = [stringifyToml sampleDoc] ∧
    sameOutcome.world.cargoText = some (stringifyToml sampleDoc) :=
  ⟨rfl, c7_unconditional_write wSame { version := some "0.1.4" } "0.1.4"
    sampleCargoText sampleDoc sampleDoc sameOutcome rfl rfl rfl rfl rfl
    (Option.some_get _).symm⟩

/-- C8 counterexample: in the spec's concrete scenario (secondary at `0.1.4`,
primary `0.1.7`) the run succeeds, yet no console line ever mentions the old
version `0.1.4`: the script never reads the secondary's previous version and
reports only the new one, so no `{ oldVersion, newVersion }` result exists. -/
theorem c8_counterexample :
    (runSync wOk).map Outcome.exitCode = some 0 ∧
    (runSync wOk).map (fun o => o.log.any (fun l => mentionsVersion l "0.1.4")) =
      some false ∧
    (runSync wOk).map (fun o => o.errLog.any (fun l => mentionsVersion l "0.1.4")) =
      some false :=
  ⟨rfl, rfl, rfl⟩

/-- C8 amended: every version value the console reports in any run is the NEW
version read from the primary manifest; the secondary manifest's previous
version is never read, reported or returned. -/
theorem c8_amended_only_new_version_reported (w : World) (pk : Pack)
    (V : String) (o : Outcome) (hpj : w.packageJson = some pk)
    (hver : pk.version = some V) (hrun : runSync w = some o) :
    o.log.all (mentionsOnly V) = true ∧ o.errLog.all (mentionsOnly V) = true := by
  rcases hct : w.cargoText with _ | text
  · rw [runSync_no_cargo hpj hver hct] at hrun
    injection hrun with h1
    subst h1
    simp [earlyFail, mentionsOnly]
  · rcases hparse : parseToml text with e | cargo
    · rw [runSync_parse_error hpj hver hct hparse] at hrun
      injection hrun with h1
      subst h1
      simp [earlyFail, mentionsOnly]
    · rcases hset : setFieldInDoc cargo "package" "version" V with _ | cargo1
      · rw [runSync_no_package_table hpj hver hct hparse hset] at hrun
        injection hrun with h1
        subst h1
        simp [earlyFail, mentionsOnly]
      · rw [runSync_reaches_git hpj hver hct hparse hset] at hrun
        injection hrun with h1
        subst h1
        by_cases hrepo : w.git.inRepo
        · rcases hh : w.git.head with _ | c <;>
            simp [gitPhase, hrepo, hh, mentionsOnly]
        · simp [gitPhase, hrepo, mentionsOnly]

/-- C8 amended witness: the success scenario's log lines carry only `0.1.7`. -/
theorem c8_amended_witness :
    okOutcome.log.all (mentionsOnly "0.1.7") = true ∧
    okOutcome.errLog.all (mentionsOnly "0.1.7") = true :=
  c8_amended_only_new_version_reported wOk { version := some "0.1.7" } "0.1.7"
    okOutcome rfl rfl (Option.some_get _).symm

/-- C9: in every run, the git trace is a prefix-closed sequence `git add
src-tauri/Cargo.toml` then `git commit --amend --no-edit --no-verify`: exactly
that one path is staged and nothing else, staging always precedes the amend,
the amend is attempted only if staging succeeded, and a successful run amends
HEAD in place reusing its message. -/
theorem c9_stage_exactly_then_amend (w : World) (o : Outcome)
    (hrun : runSync w = some o) :
    (o.gitTrace = [] ∨ o.gitTrace = [.add cargoPath] ∨
      o.gitTrace = [.add cargoPath, .commitAmendNoEditNoVerify]) ∧
    (GitCmd.commitAmendNoEditNoVerify ∈ o.gitTrace → w.git.inRepo = true) ∧
    (o.exitCode = 0 →
      (o.world.git.head).map Commit.message = (w.git.head).map Commit.message) := by
  rcases hpj : w.packageJson with _ | pk
  · rw [runSync_no_primary hpj] at hrun
    injection hrun with h1
    subst h1
    simp [earlyFail]
  · rcases hver : pk.version with _ | V
    · have hnone : runSync w = none := by
        simp [runSync, hpj, hver]
      rw [hnone] at hrun
      exact nomatch hrun
    · rcases hct : w.cargoText with _ | text
      · rw [runSync_no_cargo hpj hver hct] at hrun
        injection hrun with h1
        subst h1
        simp [earlyFail]
      · rcases hparse : parseToml text with e | cargo
        · rw [runSync_parse_error hpj hver hct hparse] at hrun
          injection hrun with h1
          subst h1
          simp [earlyFail]
        · rcases hset : setFieldInDoc cargo "package" "version" V with _ | cargo1
          · rw [runSync_no_package_table hpj hver hct hparse hset] at hrun
            injection hrun with h1
            subst h1
            simp [earlyFail]
          · rw [runSync_reaches_git hpj hver hct hparse hset] at hrun
            injection hrun with h1
            subst h1
            by_cases hrepo : w.git.inRepo
            · rcases hh : w.git.head with _ | c <;>
                simp [gitPhase, hrepo, hh]
            · simp [gitPhase, hrepo]

/-- C9 witness: the success scenario issues exactly add-then-amend, and HEAD's
message is preserved by the amend. -/
theorem c9_witness :
    (okOutcome.gitTrace = [] ∨ okOutcome.gitTrace = [.add cargoPath] ∨
      okOutcome.gitTrace = [.add cargoPath, .commitAmendNoEditNoVerify]) ∧
    (GitCmd.commitAmendNoEditNoVerify ∈ okOutcome.gitTrace →
      wOk.git.inRepo = true) ∧
    (okOutcome.exitCode = 0 →
      (okOutcome.world.git.head).map Commit.message =
        (wOk.git.head).map Commit.message) :=
  c9_stage_exactly_then_amend wOk okOutcome (Option.some_get _).symm

/-- C10: when staging succeeds but the amend fails (repository with no HEAD),
the run exits 1 after writing the error to stderr and performs no further
filesystem or index operation: the one write stays, the index still holds the
staged new content, nothing is reverted, and no commit appears. -/
theorem c10_amend_failure_leaves_staged (w : World) (pk : Pack) (V : String)
    (text : List Char) (cargo cargo1 : Doc) (o : Outcome)
    (hpj : w.packageJson = some pk) (hver : pk.version = some V)
    (hct : w.cargoText = some text) (hparse : parseToml text = .ok cargo)
    (hset : setFieldInDoc cargo "package" "version" V = some cargo1)
    (hrepo : w.git.inRepo = true) (hhead : w.git.head = none)
    (hrun : runSync w = some o) :
    o.exitCode = 1 ∧ o.err = some .versionControlError ∧
    o.errLog = [.amendFailed] ∧
    o.world.cargoText = some (stringifyToml cargo1) ∧
    o.world.git.index = some (stringifyToml cargo1) ∧
    o.fsWrites = [stringifyToml cargo1] ∧
    o.gitTrace = [.add cargoPath, .commitAmendNoEditNoVerify] ∧
    o.world.git.head = none := by
  rw [runSync_reaches_git hpj hver hct hparse hset] at hrun
  injection hrun with h1
  subst h1
  simp [gitPhase, hrepo, hhead]

/-- C10 witness: the no-commit scenario, with the file modified on disk AND
still staged in the index. -/
theorem c10_witness :
    noHeadOutcome.exitCode = 1 ∧
    noHeadOutcome.err = some PipeError.versionControlError ∧
    noHeadOutcome.errLog = [ConsoleLine.amendFailed] ∧
    noHeadOutcome.world.cargoText = some (stringifyToml sampleDoc17) ∧
    noHeadOutcome.world.git.index = some (stringifyToml sampleDoc17) ∧
    noHeadOutcome.fsWrites = [stringifyToml sampleDoc17] ∧
    noHeadOutcome.gitTrace = [.add cargoPath, .commitAmendNoEditNoVerify] ∧
    noHeadOutcome.world.git.head = none :=
  c10_amend_failure_leaves_staged wNoHead { version := some "0.1.7" } "0.1.7"
    sampleCargoText sampleDoc sampleDoc17 noHeadOutcome rfl rfl rfl rfl rfl
    rfl rfl (Option.some_get _).symm

end Prism
